import Mathlib

/-!
Verification of the `subtale-mimir` rule-matching engine
(`crates/subtale-mimir/src/rule.rs`).

The Rust code stores facts and conditions in `indexmap::IndexMap` values
(insertion-ordered maps).  We embed such a map as an association list with
the `IndexMap` operations: `get` finds the first entry with the given key,
`insert` overwrites the value in place when the key is present and appends
a new entry otherwise, and `extend` folds `insert` over the other map's
entries in order.

The `Evaluator` trait (a predicate `FactType -> bool`) lives outside
`src/`, so rules carry an abstract evaluator type `E` together with an
evaluation function `ev : E → V → Bool` passed to the operations, exactly
mirroring the trait bound.

`Ruleset::sort` in the source is `sort_by_cached_key(|x| x.evaluators.len())`
followed by `reverse()`.  `sort_by_cached_key` is a *stable* ascending sort,
and a stable sort is extensionally unique, so we embed it as Mathlib's
stable `List.insertionSort` (ascending by condition count) followed by
`List.reverse`.

`Ruleset::evaluate` draws a uniformly random element of the matched slice
(`SliceRandom::choose`: `None` on an empty slice, otherwise the entry at a
random index `< len`).  We model the random draw by an arbitrary `pick : Nat`
reduced modulo the length, so quantifying over `pick` quantifies over every
possible random choice.
-/

namespace Mimir

/-- `IndexMap::get`: value of the first (and, under the no-duplicate-key
invariant, only) entry with the given key. -/
def getEntry {K V : Type} [DecidableEq K] : List (K × V) → K → Option V
  | [], _ => none
  | (k', v) :: rest, k => if k' = k then some v else getEntry rest k

/-- `IndexMap::insert`: if the key is present, the entry keeps its place and
its value is replaced; otherwise the new entry is appended at the end. -/
def idxInsert {K V : Type} [DecidableEq K] : List (K × V) → K → V → List (K × V)
  | [], k, v => [(k, v)]
  | (k', v') :: rest, k, v =>
    if k' = k then (k', v) :: rest else (k', v') :: idxInsert rest k v

/-- `Query<FactKey, FactType>`: the fact store, an `IndexMap` from fact name
to fact value. -/
structure Query (K V : Type) where
  facts : List (K × V)
deriving DecidableEq

/-- `Query::new`. -/
def Query.new {K V : Type} : Query K V := ⟨[]⟩

/-- `Query::insert`. -/
def Query.insert {K V : Type} [DecidableEq K] (q : Query K V) (k : K) (v : V) :
    Query K V :=
  ⟨idxInsert q.facts k v⟩

/-- `Query::extend`: `IndexMap::extend` inserts the other map's entries in
order. -/
def Query.extend {K V : Type} [DecidableEq K] (q other : Query K V) : Query K V :=
  ⟨other.facts.foldl (fun acc p => idxInsert acc p.1 p.2) q.facts⟩

/-- `Query` lookup (`query.facts.get(fact)`). -/
def Query.get {K V : Type} [DecidableEq K] (q : Query K V) (k : K) : Option V :=
  getEntry q.facts k

/-- `Rule<FactKey, FactType, FactEvaluator, Outcome>`: an `IndexMap` of
per-fact evaluators plus an outcome payload.  The `FactType` parameter `V`
is phantom, as in the source (`PhantomData<FactType>`). -/
structure Rule (K V E O : Type) where
  evaluators : List (K × E)
  outcome : O
deriving DecidableEq

/-- `Rule::new`. -/
def Rule.new {K V E O : Type} (outcome : O) : Rule K V E O := ⟨[], outcome⟩

/-- `Rule::insert`. -/
def Rule.insert {K V E O : Type} [DecidableEq K] (r : Rule K V E O) (k : K)
    (e : E) : Rule K V E O :=
  ⟨idxInsert r.evaluators k e, r.outcome⟩

/-- `Rule::evaluate`: fast-reject when the rule has more conditions than the
query has facts, otherwise a short-circuit conjunction over the rule's
evaluators, each looked up in the query. -/
def Rule.evaluate {K V E O : Type} [DecidableEq K] (ev : E → V → Bool)
    (r : Rule K V E O) (q : Query K V) : Bool :=
  if r.evaluators.length > q.facts.length then false
  else
    r.evaluators.all fun p =>
      match getEntry q.facts p.1 with
      | some v => ev p.2 v
      | none => false

/-- `Ruleset<FactKey, FactType, FactEvaluator, Outcome>`. -/
structure Ruleset (K V E O : Type) where
  rules : List (Rule K V E O)
deriving DecidableEq

/-- The sort key of `Ruleset::sort`: ascending comparison of condition
counts. -/
def ruleLe {K V E O : Type} (a b : Rule K V E O) : Prop :=
  a.evaluators.length ≤ b.evaluators.length

instance {K V E O : Type} : DecidableRel (@ruleLe K V E O) := fun x y =>
  inferInstanceAs (Decidable (x.evaluators.length ≤ y.evaluators.length))

instance {K V E O : Type} : IsTotal (Rule K V E O) ruleLe :=
  ⟨fun x y => Nat.le_total x.evaluators.length y.evaluators.length⟩

instance {K V E O : Type} : IsTrans (Rule K V E O) ruleLe :=
  ⟨fun _ _ _ h h' => Nat.le_trans h h'⟩

/-- `Ruleset::sort`: stable ascending sort by condition count
(`sort_by_cached_key`), then reverse the whole sequence. -/
def Ruleset.sort {K V E O : Type} (rs : Ruleset K V E O) : Ruleset K V E O :=
  ⟨(rs.rules.insertionSort ruleLe).reverse⟩

/-- `Ruleset::new`: take the rules and sort. -/
def Ruleset.new {K V E O : Type} (rules : List (Rule K V E O)) :
    Ruleset K V E O :=
  Ruleset.sort ⟨rules⟩

/-- `Ruleset::append`: move the other ruleset's rules to the end of ours
(leaving the donor empty) and re-sort.  Returned as the pair
(updated self, emptied donor). -/
def Ruleset.append {K V E O : Type} (self other : Ruleset K V E O) :
    Ruleset K V E O × Ruleset K V E O :=
  (Ruleset.sort ⟨self.rules ++ other.rules⟩, ⟨[]⟩)

/-- `matched.get(0).map_or(0, |x| x.evaluators.len())`. -/
def headSpec {K V E O : Type} : List (Rule K V E O) → Nat
  | [] => 0
  | r :: _ => r.evaluators.length

/-- The scan loop of `Ruleset::evaluate_all`, with the `matched`
accumulator made explicit. -/
def evaluateAllGo {K V E O : Type} [DecidableEq K] (ev : E → V → Bool)
    (q : Query K V) : List (Rule K V E O) → List (Rule K V E O) →
    List (Rule K V E O)
  | [], matched => matched
  | r :: rest, matched =>
    if headSpec matched ≤ r.evaluators.length then
      if r.evaluate ev q then evaluateAllGo ev q rest (matched ++ [r])
      else evaluateAllGo ev q rest matched
    else matched

/-- `Ruleset::evaluate_all`. -/
def Ruleset.evaluateAll {K V E O : Type} [DecidableEq K] (ev : E → V → Bool)
    (rs : Ruleset K V E O) (q : Query K V) : List (Rule K V E O) :=
  evaluateAllGo ev q rs.rules []

/-- `Ruleset::evaluate`: `evaluate_all` then a uniformly random element of
the result (`SliceRandom::choose`), modelled by the oracle index `pick`
reduced modulo the number of matches; `none` exactly on an empty slice. -/
def Ruleset.evaluate {K V E O : Type} [DecidableEq K] (ev : E → V → Bool)
    (rs : Ruleset K V E O) (q : Query K V) (pick : Nat) :
    Option (Rule K V E O) :=
  let matched := rs.evaluateAll ev q
  matched[pick % matched.length]?

/-- A concrete evaluator type used for closed test instances, standing in
for the crate's `FloatEvaluator`-style implementations of the `Evaluator`
trait. -/
inductive NatEval where
  | eqTo (n : Nat)
  | gtThan (n : Nat)
deriving DecidableEq

/-- Run a concrete `NatEval` evaluator on a fact value. -/
def NatEval.run : NatEval → Nat → Bool
  | .eqTo n, v => v == n
  | .gtThan n, v => n < v

/-- The descending-specificity invariant on a stored rule sequence: every
later rule has at most as many conditions as every earlier one. -/
@[reducible]
def SortedDesc {K V E O : Type} (l : List (Rule K V E O)) : Prop :=
  l.Pairwise fun a b => b.evaluators.length ≤ a.evaluators.length

instance {K V E O : Type} (l : List (Rule K V E O)) :
    Decidable (SortedDesc l) :=
  decidable_of_iff
    (l.Pairwise fun a b => b.evaluators.length ≤ a.evaluators.length) Iff.rfl

theorem sortedDesc_sort {K V E O : Type} (rs : Ruleset K V E O) :
    SortedDesc (Ruleset.sort rs).rules := by
  have h := List.sorted_insertionSort ruleLe rs.rules
  rw [Ruleset.sort]
  exact (List.pairwise_reverse).mpr h

theorem perm_sort {K V E O : Type} (rs : Ruleset K V E O) :
    List.Perm (Ruleset.sort rs).rules rs.rules := by
  rw [Ruleset.sort]
  exact (List.reverse_perm _).trans (List.perm_insertionSort ruleLe rs.rules)

theorem getEntry_some_mem_keys {K V : Type} [DecidableEq K]
    {l : List (K × V)} {k : K} {v : V} (h : getEntry l k = some v) :
    k ∈ l.map Prod.fst := by
  induction l with
  | nil => simp [getEntry] at h
  | cons p rest ih =>
    rw [getEntry] at h
    by_cases hk : p.1 = k
    · simp [hk]
    · rw [if_neg hk] at h
      exact List.mem_cons_of_mem _ (ih h)

theorem getEntry_eq_none_of_not_mem {K V : Type} [DecidableEq K]
    {l : List (K × V)} {k : K} (h : k ∉ l.map Prod.fst) :
    getEntry l k = none := by
  induction l with
  | nil => rfl
  | cons p rest ih =>
    rw [getEntry]
    simp only [List.map_cons, List.mem_cons] at h
    push_neg at h
    rw [if_neg (Ne.symm h.1)]
    exact ih h.2

theorem getEntry_isSome_of_mem {K V : Type} [DecidableEq K]
    {l : List (K × V)} {k : K} (h : k ∈ l.map Prod.fst) :
    (getEntry l k).isSome = true := by
  induction l with
  | nil => simp at h
  | cons p rest ih =>
    rw [getEntry]
    by_cases hp : p.1 = k
    · rw [if_pos hp]; rfl
    · rw [if_neg hp]
      apply ih
      rw [List.map_cons] at h
      rcases List.mem_cons.mp h with he | hm
      · exact absurd he.symm hp
      · exact hm

theorem getEntry_isSome_iff_mem {K V : Type} [DecidableEq K]
    (l : List (K × V)) (k : K) :
    (getEntry l k).isSome = true ↔ k ∈ l.map Prod.fst := by
  constructor
  · intro h
    rcases Option.isSome_iff_exists.mp h with ⟨v, hv⟩
    exact getEntry_some_mem_keys hv
  · exact getEntry_isSome_of_mem

theorem getEntry_idxInsert {K V : Type} [DecidableEq K]
    (l : List (K × V)) (k : K) (v : V) (k' : K) :
    getEntry (idxInsert l k v) k' = if k = k' then some v else getEntry l k' := by
  induction l with
  | nil => by_cases h : k = k' <;> simp [idxInsert, getEntry, h]
  | cons p rest ih =>
    rw [idxInsert]
    by_cases h1 : p.1 = k
    · subst h1
      by_cases h2 : p.1 = k'
      · subst h2; simp [getEntry]
      · simp [getEntry, h2]
    · rw [if_neg h1, getEntry, getEntry, ih]
      by_cases h2 : p.1 = k'
      · subst h2
        simp [Ne.symm h1]
      · rw [if_neg h2, if_neg h2]

theorem keys_idxInsert {K V : Type} [DecidableEq K]
    (l : List (K × V)) (k : K) (v : V) :
    (idxInsert l k v).map Prod.fst =
      if k ∈ l.map Prod.fst then l.map Prod.fst else l.map Prod.fst ++ [k] := by
  induction l with
  | nil => simp [idxInsert]
  | cons p rest ih =>
    rw [idxInsert]
    by_cases h1 : p.1 = k
    · rw [if_pos h1]
      simp [h1]
    · rw [if_neg h1, List.map_cons, ih, List.map_cons]
      by_cases h2 : k ∈ rest.map Prod.fst
      · rw [if_pos h2, if_pos (List.mem_cons_of_mem _ h2)]
      · have hnm : k ∉ p.1 :: rest.map Prod.fst := by
          simp only [List.mem_cons]
          push_neg
          exact ⟨fun he => h1 he.symm, h2⟩
        rw [if_neg h2, if_neg hnm, List.cons_append]

theorem nodup_keys_idxInsert {K V : Type} [DecidableEq K]
    {l : List (K × V)} (k : K) (v : V) (h : (l.map Prod.fst).Nodup) :
    ((idxInsert l k v).map Prod.fst).Nodup := by
  rw [keys_idxInsert]
  by_cases hm : k ∈ l.map Prod.fst
  · rw [if_pos hm]; exact h
  · rw [if_neg hm]
    exact List.Nodup.append h (List.nodup_singleton k) (by simpa using hm)

theorem length_idxInsert_of_mem {K V : Type} [DecidableEq K]
    {l : List (K × V)} {k : K} (v : V) (h : k ∈ l.map Prod.fst) :
    (idxInsert l k v).length = l.length := by
  have := keys_idxInsert l k v
  rw [if_pos h] at this
  have hlen := congrArg List.length this
  simpa using hlen

theorem getEntry_foldl_idxInsert {K V : Type} [DecidableEq K]
    (l2 : List (K × V)) (h2 : (l2.map Prod.fst).Nodup) :
    ∀ (l1 : List (K × V)) (k : K),
      getEntry (l2.foldl (fun acc p => idxInsert acc p.1 p.2) l1) k =
        (getEntry l2 k).or (getEntry l1 k) := by
  induction l2 with
  | nil => intro l1 k; simp [getEntry]
  | cons p rest ih =>
    intro l1 k
    simp only [List.map_cons, List.nodup_cons] at h2
    rw [List.foldl_cons, ih h2.2, getEntry, getEntry_idxInsert]
    by_cases h : p.1 = k
    · rw [if_pos h, if_pos h]
      rw [getEntry_eq_none_of_not_mem (h ▸ h2.1)]
      rfl
    · rw [if_neg h, if_neg h]

theorem evaluate_of_nil_evaluators {K V E O : Type} [DecidableEq K]
    (ev : E → V → Bool) (r : Rule K V E O) (q : Query K V)
    (h : r.evaluators = []) : r.evaluate ev q = true := by
  simp [Rule.evaluate, h]

theorem evaluateAllGo_ne_nil_of_matched {K V E O : Type} [DecidableEq K]
    (ev : E → V → Bool) (q : Query K V) :
    ∀ (rules matched : List (Rule K V E O)), matched ≠ [] →
      evaluateAllGo ev q rules matched ≠ [] := by
  intro rules
  induction rules with
  | nil => intro matched h; exact h
  | cons r rest ih =>
    intro matched h
    rw [evaluateAllGo]
    by_cases hc : headSpec matched ≤ r.evaluators.length
    · rw [if_pos hc]
      by_cases hs : r.evaluate ev q = true
      · rw [if_pos hs]
        exact ih _ (by simp)
      · rw [if_neg hs]
        exact ih _ h
    · rw [if_neg hc]
      exact h

theorem evaluateAllGo_ne_nil_of_sat {K V E O : Type} [DecidableEq K]
    (ev : E → V → Bool) (q : Query K V) :
    ∀ (rules matched : List (Rule K V E O)),
      (∃ r ∈ rules, r.evaluate ev q = true) →
      evaluateAllGo ev q rules matched ≠ [] := by
  intro rules
  induction rules with
  | nil =>
    intro matched h
    rcases h with ⟨r, hmem, _⟩
    cases hmem
  | cons r rest ih =>
    intro matched h
    rw [evaluateAllGo]
    by_cases hc : headSpec matched ≤ r.evaluators.length
    · rw [if_pos hc]
      by_cases hs : r.evaluate ev q = true
      · rw [if_pos hs]
        exact evaluateAllGo_ne_nil_of_matched ev q rest _ (by simp)
      · rw [if_neg hs]
        rcases h with ⟨r', hmem, hsat⟩
        rcases List.mem_cons.mp hmem with he | hm
        · exact absurd (he ▸ hsat) hs
        · exact ih matched ⟨r', hm, hsat⟩
    · rw [if_neg hc]
      intro hnil
      subst hnil
      exact hc (Nat.zero_le _)

/-- The highest specificity tier of `rules` containing at least one rule
satisfied by `q`: the maximum condition count over the satisfied rules
(0 when no rule is satisfied). -/
def winningTier {K V E O : Type} [DecidableEq K] (ev : E → V → Bool)
    (q : Query K V) (rules : List (Rule K V E O)) : Nat :=
  ((rules.filter fun r => r.evaluate ev q).map
    fun r => r.evaluators.length).foldr max 0

theorem foldr_max_le {l : List Nat} {c : Nat} (h : ∀ x ∈ l, x ≤ c) :
    l.foldr max 0 ≤ c := by
  induction l with
  | nil => exact Nat.zero_le c
  | cons x xs ih =>
    rw [List.foldr_cons]
    exact Nat.max_le.mpr ⟨h x (List.mem_cons_self x xs),
      ih fun y hy => h y (List.mem_cons_of_mem x hy)⟩

theorem evaluateAllGo_after_match {K V E O : Type} [DecidableEq K]
    (ev : E → V → Bool) (q : Query K V) (m0 : Rule K V E O) :
    ∀ (rules ms : List (Rule K V E O)),
      (∀ r ∈ rules, r.evaluators.length ≤ m0.evaluators.length) →
      evaluateAllGo ev q rules (m0 :: ms) =
        (m0 :: ms) ++
          ((rules.takeWhile
              fun r => r.evaluators.length == m0.evaluators.length).filter
            fun r => r.evaluate ev q) := by
  intro rules
  induction rules with
  | nil => intro ms _; simp [evaluateAllGo]
  | cons r rest ih =>
    intro ms hall
    have hrle : r.evaluators.length ≤ m0.evaluators.length :=
      hall r (List.mem_cons_self r rest)
    have hrest : ∀ r' ∈ rest, r'.evaluators.length ≤ m0.evaluators.length :=
      fun r' hr' => hall r' (List.mem_cons_of_mem r hr')
    rw [evaluateAllGo]
    by_cases he : r.evaluators.length = m0.evaluators.length
    · have hc : headSpec (m0 :: ms) ≤ r.evaluators.length := Nat.le_of_eq he.symm
      rw [if_pos hc, List.takeWhile_cons_of_pos (by simpa using he)]
      by_cases hs : r.evaluate ev q = true
      · rw [if_pos hs, List.cons_append, ih (ms ++ [r]) hrest]
        simp [List.filter_cons, hs]
      · rw [if_neg hs, ih ms hrest]
        simp [List.filter_cons, hs]
    · have hlt : r.evaluators.length < m0.evaluators.length :=
        Nat.lt_of_le_of_ne hrle he
      have hc : ¬ headSpec (m0 :: ms) ≤ r.evaluators.length :=
        Nat.not_le.mpr hlt
      rw [if_neg hc, List.takeWhile_cons_of_neg (by simpa using he)]
      simp

theorem takeWhile_len_eq_filter {K V E O : Type} (s : Nat) :
    ∀ (rules : List (Rule K V E O)), SortedDesc rules →
      (∀ r ∈ rules, r.evaluators.length ≤ s) →
      rules.takeWhile (fun r => r.evaluators.length == s) =
        rules.filter fun r => r.evaluators.length == s := by
  intro rules
  induction rules with
  | nil => intro _ _; rfl
  | cons r rest ih =>
    intro hsorted hall
    rcases List.pairwise_cons.mp hsorted with ⟨hhead, hrest⟩
    by_cases he : r.evaluators.length = s
    · rw [List.takeWhile_cons_of_pos (by simpa using he),
        List.filter_cons_of_pos (by simpa using he),
        ih hrest fun r' hr' => hall r' (List.mem_cons_of_mem r hr')]
    · have hfilter : rest.filter (fun r' => r'.evaluators.length == s) = [] := by
        rw [List.filter_eq_nil_iff]
        intro r' hr'
        have h1 : r'.evaluators.length ≤ r.evaluators.length := hhead r' hr'
        have h2 : r.evaluators.length < s :=
          Nat.lt_of_le_of_ne (hall r (List.mem_cons_self r rest)) he
        simp only [beq_iff_eq]
        exact Nat.ne_of_lt (Nat.lt_of_le_of_lt h1 h2)
      rw [List.takeWhile_cons_of_neg (by simpa using he),
        List.filter_cons_of_neg (by simpa using he), hfilter]

theorem winningTier_cons_sat {K V E O : Type} [DecidableEq K]
    (ev : E → V → Bool) (q : Query K V) (r : Rule K V E O)
    (rest : List (Rule K V E O))
    (hall : ∀ r' ∈ rest, r'.evaluators.length ≤ r.evaluators.length)
    (hs : r.evaluate ev q = true) :
    winningTier ev q (r :: rest) = r.evaluators.length := by
  have hle : ((rest.filter fun r' => r'.evaluate ev q).map
      fun r' => r'.evaluators.length).foldr max 0 ≤ r.evaluators.length := by
    apply foldr_max_le
    intro x hx
    rcases List.mem_map.mp hx with ⟨r', hr', hx'⟩
    exact hx' ▸ hall r' (List.mem_of_mem_filter hr')
  simp only [winningTier, List.filter_cons, hs, if_true, List.map_cons,
    List.foldr_cons]
  exact Nat.max_eq_left hle

theorem evaluateAllGo_nil_acc {K V E O : Type} [DecidableEq K]
    (ev : E → V → Bool) (q : Query K V) :
    ∀ rules : List (Rule K V E O), SortedDesc rules →
      evaluateAllGo ev q rules [] =
        rules.filter fun r =>
          r.evaluate ev q &&
            (r.evaluators.length == winningTier ev q rules) := by
  intro rules
  induction rules with
  | nil => intro _; rfl
  | cons r rest ih =>
    intro hsorted
    rcases List.pairwise_cons.mp hsorted with ⟨hall, hrest⟩
    rw [evaluateAllGo,
      if_pos (show headSpec ([] : List (Rule K V E O)) ≤ r.evaluators.length
        from Nat.zero_le _)]
    by_cases hs : r.evaluate ev q = true
    · rw [if_pos hs, List.nil_append]
      have hwt : winningTier ev q (r :: rest) = r.evaluators.length :=
        winningTier_cons_sat ev q r rest hall hs
      rw [evaluateAllGo_after_match ev q r rest [] hall,
        takeWhile_len_eq_filter r.evaluators.length rest hrest hall,
        List.filter_filter, hwt]
      simp [List.filter_cons, hs]
    · rw [if_neg hs, ih hrest]
      have hwt : winningTier ev q (r :: rest) = winningTier ev q rest := by
        simp [winningTier, List.filter_cons, hs]
      rw [hwt]
      simp [List.filter_cons, hs]

theorem pairwise_ruleLe_of_const_len {K V E O : Type} {s : Nat} :
    ∀ {rules : List (Rule K V E O)},
      (∀ r ∈ rules, r.evaluators.length = s) → rules.Pairwise ruleLe := by
  intro rules
  induction rules with
  | nil => intro _; exact List.Pairwise.nil
  | cons r rest ih =>
    intro h
    refine List.Pairwise.cons ?_
      (ih fun r' hr' => h r' (List.mem_cons_of_mem _ hr'))
    intro r' hr'
    rw [ruleLe, h r (List.mem_cons_self _ _), h r' (List.mem_cons_of_mem _ hr')]

/-- Concrete rules and query used in the closed test instances below.
`wRuleA` and `wRuleB` have specificity 1, `wRuleC` specificity 2, and
`wQuery` satisfies all three. -/
def wRuleA : Rule Nat Nat NatEval Nat := ⟨[(0, NatEval.eqTo 5)], 10⟩

def wRuleB : Rule Nat Nat NatEval Nat := ⟨[(1, NatEval.eqTo 7)], 11⟩

def wRuleC : Rule Nat Nat NatEval Nat :=
  ⟨[(0, NatEval.eqTo 5), (1, NatEval.eqTo 7)], 12⟩

def wQuery : Query Nat Nat := ⟨[(0, 5), (1, 7)]⟩

def wRuleset : Ruleset Nat Nat NatEval Nat :=
  Ruleset.new [wRuleA, wRuleB, wRuleC]

def wQuery2 : Query Nat Nat := ⟨[(1, 9), (2, 3)]⟩

def wFallback : Rule Nat Nat NatEval Nat := ⟨[], 99⟩

def wRulesetFb : Ruleset Nat Nat NatEval Nat :=
  Ruleset.new [wFallback, wRuleA]

end Mimir

namespace Mimir

/-- C7: a rule with an empty condition set evaluates to true against every
query (the specificity-0 universal fallback). -/
theorem empty_rule_matches_every_query {K V E O : Type} [DecidableEq K]
    (ev : E → V → Bool) (o : O) (q : Query K V) :
    Rule.evaluate ev ⟨[], o⟩ q = true :=
  evaluate_of_nil_evaluators ev _ q rfl

/-- C4: after `Ruleset::new` and after `Ruleset::append`, the stored rule
sequence is sorted by descending specificity (condition count). -/
theorem ruleset_sorted_after_mutation {K V E O : Type}
    (rules : List (Rule K V E O)) (s1 s2 : Ruleset K V E O) :
    SortedDesc (Ruleset.new rules).rules ∧
    SortedDesc (Ruleset.append s1 s2).1.rules :=
  ⟨sortedDesc_sort _, sortedDesc_sort _⟩

/-- C5: `append` empties the donor, and the receiver holds exactly the
multiset union of both original rule collections, sorted by descending
specificity. -/
theorem append_moves_all_rules {K V E O : Type} (s1 s2 : Ruleset K V E O) :
    (Ruleset.append s1 s2).2.rules = [] ∧
    List.Perm (Ruleset.append s1 s2).1.rules (s1.rules ++ s2.rules) ∧
    SortedDesc (Ruleset.append s1 s2).1.rules :=
  ⟨rfl, perm_sort _, sortedDesc_sort _⟩

/-- C6: for every possible random choice, `Ruleset::evaluate` returns
no-match exactly when `evaluate_all` is empty, and any rule it returns is
an element of `evaluate_all`'s result. -/
theorem evaluate_refines_evaluateAll {K V E O : Type} [DecidableEq K]
    (ev : E → V → Bool) (rs : Ruleset K V E O) (q : Query K V) (pick : Nat) :
    (rs.evaluate ev q pick = none ↔ rs.evaluateAll ev q = []) ∧
    ∀ r, rs.evaluate ev q pick = some r → r ∈ rs.evaluateAll ev q := by
  constructor
  · rw [Ruleset.evaluate]
    cases h : rs.evaluateAll ev q with
    | nil => simp
    | cons a l =>
      simp only [List.getElem?_eq_none_iff]
      constructor
      · intro hlen
        exact absurd (Nat.mod_lt pick (by simp)) (Nat.not_lt.mpr hlen)
      · intro hc; cases hc
  · intro r hr
    rw [Ruleset.evaluate] at hr
    exact List.getElem?_mem hr

/-- C2: `Rule::evaluate` returns true iff every fact-name in the rule's
condition set is present in the query and its evaluator accepts the
query's value for it; and it is false whenever the rule has more
conditions than the query has facts. -/
theorem rule_evaluate_characterization {K V E O : Type} [DecidableEq K]
    (ev : E → V → Bool) (r : Rule K V E O) (q : Query K V)
    (hr : (r.evaluators.map Prod.fst).Nodup) :
    (r.evaluate ev q = true ↔
      ∀ p ∈ r.evaluators, ∃ v, q.get p.1 = some v ∧ ev p.2 v = true) ∧
    (q.facts.length < r.evaluators.length → r.evaluate ev q = false) := by
  constructor
  · constructor
    · intro h
      rw [Rule.evaluate] at h
      by_cases hlen : r.evaluators.length > q.facts.length
      · rw [if_pos hlen] at h; cases h
      · rw [if_neg hlen, List.all_eq_true] at h
        intro p hp
        have := h p hp
        rw [Query.get]
        cases hg : getEntry q.facts p.1 with
        | none => rw [hg] at this; cases this
        | some v => rw [hg] at this; exact ⟨v, rfl, this⟩
    · intro h
      have hsub : r.evaluators.map Prod.fst ⊆ q.facts.map Prod.fst := by
        intro k hk
        rcases List.mem_map.mp hk with ⟨p, hp, hpk⟩
        rcases h p hp with ⟨v, hv, _⟩
        rw [Query.get] at hv
        exact hpk ▸ getEntry_some_mem_keys hv
      have hlen : r.evaluators.length ≤ q.facts.length := by
        have := (List.subperm_of_subset hr hsub).length_le
        simpa using this
      rw [Rule.evaluate, if_neg (Nat.not_lt.mpr hlen), List.all_eq_true]
      intro p hp
      rcases h p hp with ⟨v, hv, hev⟩
      rw [Query.get] at hv
      rw [hv]
      exact hev
  · intro h
    rw [Rule.evaluate, if_pos h]

/-- C8: a query maps each fact name to at most one value: `Query::insert`
keeps the keys duplicate-free, overwrites the value of an already-present
name without adding a second entry, and `Query::extend` yields the key
union of both queries with the argument query's value winning on every
colliding key. -/
theorem query_insert_extend_semantics {K V : Type} [DecidableEq K]
    (q q2 : Query K V) (k : K) (v : V)
    (hq : (q.facts.map Prod.fst).Nodup)
    (hq2 : (q2.facts.map Prod.fst).Nodup) :
    (((q.insert k v).facts.map Prod.fst).Nodup) ∧
    (∀ k', (q.insert k v).get k' = if k = k' then some v else q.get k') ∧
    (k ∈ q.facts.map Prod.fst → (q.insert k v).facts.length = q.facts.length) ∧
    (∀ k', (q.extend q2).get k' = (q2.get k').or (q.get k')) ∧
    (∀ k', k' ∈ (q.extend q2).facts.map Prod.fst ↔
      k' ∈ q.facts.map Prod.fst ∨ k' ∈ q2.facts.map Prod.fst) := by
  refine ⟨nodup_keys_idxInsert k v hq, ?_, ?_, ?_, ?_⟩
  · intro k'
    exact getEntry_idxInsert q.facts k v k'
  · intro hm
    exact length_idxInsert_of_mem v hm
  · intro k'
    exact getEntry_foldl_idxInsert q2.facts hq2 q.facts k'
  · intro k'
    have hor := getEntry_foldl_idxInsert q2.facts hq2 q.facts k'
    rw [← getEntry_isSome_iff_mem, ← getEntry_isSome_iff_mem,
      ← getEntry_isSome_iff_mem]
    show (getEntry
        (q2.facts.foldl (fun acc p => idxInsert acc p.1 p.2) q.facts)
        k').isSome = true ↔ _
    rw [hor, Option.isSome_or, Bool.or_eq_true]
    exact or_comm

/-- C9: `Rule::insert` on an already-present fact name replaces the
existing evaluator in place (last insert wins, total function, no error),
keeps the condition keys duplicate-free, and the rule's specificity —
its number of conditions — equals the number of distinct fact names, so
re-inserting an existing fact name leaves specificity unchanged. -/
theorem rule_insert_semantics {K V E O : Type} [DecidableEq K]
    (r : Rule K V E O) (k : K) (e : E)
    (hr : (r.evaluators.map Prod.fst).Nodup) :
    (((r.insert k e).evaluators.map Prod.fst).Nodup) ∧
    (∀ k', getEntry (r.insert k e).evaluators k' =
      if k = k' then some e else getEntry r.evaluators k') ∧
    (k ∈ r.evaluators.map Prod.fst →
      (r.insert k e).evaluators.length = r.evaluators.length) ∧
    ((r.evaluators.map Prod.fst).dedup.length = r.evaluators.length) := by
  refine ⟨nodup_keys_idxInsert k e hr, ?_, ?_, ?_⟩
  · intro k'
    exact getEntry_idxInsert r.evaluators k e k'
  · intro hm
    exact length_idxInsert_of_mem e hm
  · rw [hr.dedup, List.length_map]

/-- C10: if a ruleset contains a rule with an empty condition set, then for
every query `evaluate_all` returns a non-empty sequence and `evaluate`
returns a match for every possible random choice. -/
theorem zero_condition_rule_guarantees_match {K V E O : Type} [DecidableEq K]
    (ev : E → V → Bool) (rs : Ruleset K V E O) (q : Query K V) (pick : Nat)
    (h : ∃ r ∈ rs.rules, r.evaluators = []) :
    rs.evaluateAll ev q ≠ [] ∧ (rs.evaluate ev q pick).isSome = true := by
  have hsat : ∃ r ∈ rs.rules, r.evaluate ev q = true := by
    rcases h with ⟨r, hmem, hnil⟩
    exact ⟨r, hmem, evaluate_of_nil_evaluators ev r q hnil⟩
  have hne : rs.evaluateAll ev q ≠ [] :=
    evaluateAllGo_ne_nil_of_sat ev q rs.rules [] hsat
  refine ⟨hne, ?_⟩
  rw [Ruleset.evaluate]
  have hlt : pick % (rs.evaluateAll ev q).length < (rs.evaluateAll ev q).length :=
    Nat.mod_lt pick (List.length_pos.mpr hne)
  simp [List.getElem?_eq_getElem hlt]

/-- C1: on a ruleset whose stored sequence satisfies the
descending-specificity invariant, `evaluate_all` returns exactly the
satisfied rules of the single highest specificity tier containing a
satisfied rule: its result is the satisfied rules whose condition count
equals `winningTier` (the maximum specificity over satisfied rules), so
every satisfied rule of that tier is returned and no satisfied rule of
any lower specificity ever is. -/
theorem evaluateAll_returns_winning_tier {K V E O : Type} [DecidableEq K]
    (ev : E → V → Bool) (rs : Ruleset K V E O) (q : Query K V)
    (h : SortedDesc rs.rules) :
    rs.evaluateAll ev q =
      rs.rules.filter (fun r =>
        r.evaluate ev q &&
          (r.evaluators.length == winningTier ev q rs.rules)) ∧
    ∀ r, r ∈ rs.evaluateAll ev q ↔
      r ∈ rs.rules ∧ r.evaluate ev q = true ∧
        r.evaluators.length = winningTier ev q rs.rules := by
  have hmain : rs.evaluateAll ev q =
      rs.rules.filter (fun r =>
        r.evaluate ev q &&
          (r.evaluators.length == winningTier ev q rs.rules)) := by
    rw [Ruleset.evaluateAll]
    exact evaluateAllGo_nil_acc ev q rs.rules h
  refine ⟨hmain, ?_⟩
  intro r
  rw [hmain, List.mem_filter]
  simp [and_assoc]

/-- C1 witness: the spec's specificity-{1,1,2} scenario, with a query
satisfying all three rules. -/
theorem evaluateAll_returns_winning_tier_witness :
    SortedDesc wRuleset.rules ∧
    (wRuleset.evaluateAll NatEval.run wQuery =
      wRuleset.rules.filter (fun r =>
        r.evaluate NatEval.run wQuery &&
          (r.evaluators.length ==
            winningTier NatEval.run wQuery wRuleset.rules)) ∧
    ∀ r, r ∈ wRuleset.evaluateAll NatEval.run wQuery ↔
      r ∈ wRuleset.rules ∧ r.evaluate NatEval.run wQuery = true ∧
        r.evaluators.length = winningTier NatEval.run wQuery wRuleset.rules) :=
  ⟨by decide,
    evaluateAll_returns_winning_tier NatEval.run wRuleset wQuery (by decide)⟩

/-- C3 counterexample: `wRuleA` and `wRuleB` have equal specificity; after
construction from `[wRuleA, wRuleB]` the ruleset stores them as
`[wRuleB, wRuleA]`, and a subsequent `append` of an empty ruleset flips
them back to `[wRuleA, wRuleB]` — the relative order of two
equal-specificity rules flips between mutations. -/
theorem tie_order_flips_between_mutations :
    wRuleA ≠ wRuleB ∧
    (Ruleset.new [wRuleA, wRuleB]).rules = [wRuleB, wRuleA] ∧
    ((Ruleset.new [wRuleA, wRuleB]).append ⟨[]⟩).1.rules =
      [wRuleA, wRuleB] := by
  decide

/-- C3 amended: the ruleset does not keep a fixed secondary order among
equal-specificity rules; instead each sort (at construction and on every
append) reverses the tie order, because the stable ascending sort is
followed by a whole-sequence reverse.  For rules of one common
specificity, construction stores them in reversed insertion order, and an
append — even of an empty ruleset — reverses that order again. -/
theorem tie_order_reverses_on_each_sort {K V E O : Type}
    (rules : List (Rule K V E O)) (s : Nat)
    (h : ∀ r ∈ rules, r.evaluators.length = s) :
    (Ruleset.new rules).rules = rules.reverse ∧
    ((Ruleset.new rules).append ⟨[]⟩).1.rules = rules := by
  have hsorted : rules.Pairwise ruleLe := pairwise_ruleLe_of_const_len h
  have hnew : (Ruleset.new rules).rules = rules.reverse := by
    rw [Ruleset.new, Ruleset.sort, List.Sorted.insertionSort_eq hsorted]
  refine ⟨hnew, ?_⟩
  have hsorted' : rules.reverse.Pairwise ruleLe :=
    pairwise_ruleLe_of_const_len fun r hr =>
      h r (List.mem_reverse.mp hr)
  rw [Ruleset.append, hnew]
  show (Ruleset.sort ⟨rules.reverse ++ []⟩).rules = rules
  rw [List.append_nil, Ruleset.sort,
    List.Sorted.insertionSort_eq hsorted', List.reverse_reverse]

/-- C3 amended witness: two distinct specificity-1 rules, reversed by
construction and reversed back by an append of an empty ruleset. -/
theorem tie_order_reverses_on_each_sort_witness :
    (∀ r ∈ [wRuleA, wRuleB], r.evaluators.length = 1) ∧
    ((Ruleset.new [wRuleA, wRuleB]).rules = [wRuleA, wRuleB].reverse ∧
      ((Ruleset.new [wRuleA, wRuleB]).append ⟨[]⟩).1.rules =
        [wRuleA, wRuleB]) :=
  ⟨by decide, tie_order_reverses_on_each_sort [wRuleA, wRuleB] 1 (by decide)⟩

/-- C2 witness: the two-condition rule `wRuleC` against `wQuery`. -/
theorem rule_evaluate_characterization_witness :
    ((wRuleC.evaluators.map Prod.fst).Nodup) ∧
    ((wRuleC.evaluate NatEval.run wQuery = true ↔
      ∀ p ∈ wRuleC.evaluators, ∃ v, wQuery.get p.1 = some v ∧
        NatEval.run p.2 v = true) ∧
    (wQuery.facts.length < wRuleC.evaluators.length →
      wRuleC.evaluate NatEval.run wQuery = false)) :=
  ⟨by decide,
    rule_evaluate_characterization NatEval.run wRuleC wQuery (by decide)⟩

/-- C8 witness: insert of an already-present name into `wQuery` and an
extend by `wQuery2`, whose key sets overlap on fact 1. -/
theorem query_insert_extend_semantics_witness :
    ((wQuery.facts.map Prod.fst).Nodup ∧ (wQuery2.facts.map Prod.fst).Nodup) ∧
    ((((wQuery.insert 0 42).facts.map Prod.fst).Nodup) ∧
    (∀ k', (wQuery.insert 0 42).get k' =
      if 0 = k' then some 42 else wQuery.get k') ∧
    (0 ∈ wQuery.facts.map Prod.fst →
      (wQuery.insert 0 42).facts.length = wQuery.facts.length) ∧
    (∀ k', (wQuery.extend wQuery2).get k' =
      (wQuery2.get k').or (wQuery.get k')) ∧
    (∀ k', k' ∈ (wQuery.extend wQuery2).facts.map Prod.fst ↔
      k' ∈ wQuery.facts.map Prod.fst ∨ k' ∈ wQuery2.facts.map Prod.fst)) :=
  ⟨⟨by decide, by decide⟩,
    query_insert_extend_semantics wQuery wQuery2 0 42 (by decide) (by decide)⟩

/-- C9 witness: re-inserting fact 0 of `wRuleC` with a different
evaluator. -/
theorem rule_insert_semantics_witness :
    ((wRuleC.evaluators.map Prod.fst).Nodup) ∧
    ((((wRuleC.insert 0 (NatEval.eqTo 9)).evaluators.map Prod.fst).Nodup) ∧
    (∀ k', getEntry (wRuleC.insert 0 (NatEval.eqTo 9)).evaluators k' =
      if 0 = k' then some (NatEval.eqTo 9)
      else getEntry wRuleC.evaluators k') ∧
    (0 ∈ wRuleC.evaluators.map Prod.fst →
      (wRuleC.insert 0 (NatEval.eqTo 9)).evaluators.length =
        wRuleC.evaluators.length) ∧
    ((wRuleC.evaluators.map Prod.fst).dedup.length =
      wRuleC.evaluators.length)) :=
  ⟨by decide, rule_insert_semantics wRuleC 0 (NatEval.eqTo 9) (by decide)⟩

/-- C10 witness: a ruleset containing the zero-condition rule `wFallback`,
evaluated against the empty query. -/
theorem zero_condition_rule_guarantees_match_witness :
    (∃ r ∈ wRulesetFb.rules, r.evaluators = []) ∧
    (wRulesetFb.evaluateAll NatEval.run ⟨[]⟩ ≠ [] ∧
      (wRulesetFb.evaluate NatEval.run ⟨[]⟩ 0).isSome = true) :=
  ⟨by decide,
    zero_condition_rule_guarantees_match NatEval.run wRulesetFb ⟨[]⟩ 0
      (by decide)⟩

end Mimir
